import Mathlib

/-!
Shallow embedding of `src/final_project_backend/src/lib.rs`: a proposal
voting canister holding a stable map from `u64` keys to `Proposal`
records, with operations `get_proposal`, `get_proposal_count`,
`create_proposal`, `edit_proposal`, `end_proposal` and `vote`.

Modelling choices:
* Caller identity (`candid::Principal`) is opaque to the code beyond
  equality comparison and set membership, so it is modelled as `Nat`.
* Keys are `u64`; the code performs no arithmetic on them, only map
  lookups, so they are modelled as `Nat`.
* The vote counters `approve`, `reject`, `pass` are `u32` in the source.
  The storage layer bounds every stored record to 5000 serialized bytes
  (`MAX_VALUE_SIZE`), and each successful vote appends one voter (at
  least one encoded byte) to `voted` alongside the single counter
  increment, so a stored record can never accumulate anywhere near
  `2^32` votes; plain `Nat` increments therefore model the counters
  exactly on every storable record.
* Each operation is a pure function `Store → ... → Store × result`,
  mirroring the source's access to the thread-local `PROPOSAL_MAP`.
* In `create_proposal` the source's declared return type is
  `Option<Proposal>` and the returned expression is the map `insert`
  call, which yields the previous value stored at the key, if any.
-/

namespace VoteContract

/-- Opaque caller identity (`candid::Principal`); only equality and set
membership are ever used. -/
abbrev Principal := Nat

/-- `enum Choice { Approve, Reject, Pass }` -/
inductive Choice where
  | Approve
  | Reject
  | Pass
deriving DecidableEq

/-- `enum VoteError { AlreadyVoted, ProposalIsNotActive, NoSuchProposal,
AccessRejected, UpdateError }` -/
inductive VoteError where
  | AlreadyVoted
  | ProposalIsNotActive
  | NoSuchProposal
  | AccessRejected
  | UpdateError
deriving DecidableEq

/-- `struct Proposal` -/
structure Proposal where
  description : String
  approve : Nat
  reject : Nat
  pass : Nat
  is_active : Bool
  voted : List Principal
  owner : Principal
deriving DecidableEq

/-- `struct CreateProposal { description, is_active }`, the argument
record of `create_proposal` and `edit_proposal`. -/
structure CreateProposal where
  description : String
  is_active : Bool
deriving DecidableEq

/-- The stable map `PROPOSAL_MAP: StableBTreeMap<u64, Proposal>`,
modelled as an association list; `Store.insert` keeps keys unique. -/
abbrev Store := List (Nat × Proposal)

/-- `StableBTreeMap::get`: the record currently stored at `key`. -/
def Store.get (s : Store) (key : Nat) : Option Proposal :=
  (List.find? (fun e => e.1 == key) s).map Prod.snd

/-- `StableBTreeMap::len`: number of stored records. -/
def Store.len (s : Store) : Nat :=
  List.length s

/-- `StableBTreeMap::insert`: stores `value` at `key` (overwriting any
previous binding) and returns the previous value, if any. -/
def Store.insert (s : Store) (key : Nat) (value : Proposal) :
    Store × Option Proposal :=
  ((key, value) :: List.filter (fun e => !(e.1 == key)) s, Store.get s key)

/-- In-place mutation through `get_mut`: applies `f` to the record bound
to `key`, leaving every other binding untouched. -/
def Store.update (s : Store) (key : Nat) (f : Proposal → Proposal) : Store :=
  List.map (fun e => if e.1 == key then (e.1, f e.2) else e) s

/-- `get_proposal(key)`: read-only query. -/
def get_proposal (s : Store) (key : Nat) : Store × Option Proposal :=
  (s, Store.get s key)

/-- `get_proposal_count()`: read-only query. -/
def get_proposal_count (s : Store) : Store × Nat :=
  (s, Store.len s)

/-- The record built by `create_proposal` before insertion: counters at
zero, empty voter set, caller as owner. -/
def freshProposal (caller : Principal) (proposal : CreateProposal) : Proposal :=
  { description := proposal.description
    approve := 0
    reject := 0
    pass := 0
    is_active := proposal.is_active
    voted := []
    owner := caller }

/-- `create_proposal(key, proposal)`: inserts a fresh record and returns
the previous value at `key` (the source's declared return type is
`Option<Proposal>`, produced by the `insert` call). -/
def create_proposal (s : Store) (caller : Principal) (key : Nat)
    (proposal : CreateProposal) : Store × Option Proposal :=
  Store.insert s key (freshProposal caller proposal)

/-- The mutation `edit_proposal` performs on the stored record. -/
def editApply (proposal : CreateProposal) (q : Proposal) : Proposal :=
  { q with description := proposal.description, is_active := proposal.is_active }

/-- `edit_proposal(key, proposal)`: owner-only update of `description`
and `is_active`. -/
def edit_proposal (s : Store) (caller : Principal) (key : Nat)
    (proposal : CreateProposal) : Store × Except VoteError Unit :=
  match Store.get s key with
  | some existing_proposal =>
      if existing_proposal.owner == caller then
        (Store.update s key (editApply proposal), Except.ok ())
      else
        (s, Except.error VoteError.AccessRejected)
  | none => (s, Except.error VoteError.NoSuchProposal)

/-- The mutation `end_proposal` performs on the stored record. -/
def endApply (q : Proposal) : Proposal :=
  { q with is_active := false }

/-- `end_proposal(key)`: owner-only deactivation. -/
def end_proposal (s : Store) (caller : Principal) (key : Nat) :
    Store × Except VoteError Unit :=
  match Store.get s key with
  | some existing_proposal =>
      if existing_proposal.owner == caller then
        (Store.update s key endApply, Except.ok ())
      else
        (s, Except.error VoteError.AccessRejected)
  | none => (s, Except.error VoteError.NoSuchProposal)

/-- The mutation `vote` performs on the stored record: one counter
increment selected by `choice`, then the caller is appended to `voted`. -/
def voteApply (caller : Principal) (choice : Choice) (q : Proposal) : Proposal :=
  let q1 :=
    match choice with
    | Choice.Approve => { q with approve := q.approve + 1 }
    | Choice.Reject => { q with reject := q.reject + 1 }
    | Choice.Pass => { q with pass := q.pass + 1 }
  { q1 with voted := q1.voted ++ [caller] }

/-- `vote(key, choice)`: any caller, once per proposal; note the source
checks only the `voted` set and never `is_active`. -/
def vote (s : Store) (caller : Principal) (key : Nat) (choice : Choice) :
    Store × Except VoteError Unit :=
  match Store.get s key with
  | some existing_proposal =>
      if existing_proposal.voted.contains caller then
        (s, Except.error VoteError.AlreadyVoted)
      else
        (Store.update s key (voteApply caller choice), Except.ok ())
  | none => (s, Except.error VoteError.NoSuchProposal)

/-- The counter of `q` selected by a choice. -/
def choiceCounter : Choice → Proposal → Nat
  | Choice.Approve, q => q.approve
  | Choice.Reject, q => q.reject
  | Choice.Pass, q => q.pass

/-- One invocation of a mutating operation, with its caller. -/
inductive Op where
  | create (caller : Principal) (key : Nat) (proposal : CreateProposal)
  | edit (caller : Principal) (key : Nat) (proposal : CreateProposal)
  | endP (caller : Principal) (key : Nat)
  | voteP (caller : Principal) (key : Nat) (choice : Choice)
deriving DecidableEq

/-- The store state after one operation. -/
def applyOp (s : Store) : Op → Store
  | Op.create caller key proposal => (create_proposal s caller key proposal).1
  | Op.edit caller key proposal => (edit_proposal s caller key proposal).1
  | Op.endP caller key => (end_proposal s caller key).1
  | Op.voteP caller key choice => (vote s caller key choice).1

/-- The store state after a sequence of operations. -/
def runOps (s : Store) (ops : List Op) : Store :=
  List.foldl applyOp s ops

/-- The operations that can set `is_active` of the record at `key`:
`create_proposal` overwrites the whole record and `edit_proposal` stores
its argument's flag, while `end_proposal` and `vote` never raise it. -/
def mayActivate (key : Nat) : Op → Bool
  | Op.create _ k _ => k == key
  | Op.edit _ k _ => k == key
  | Op.endP _ _ => false
  | Op.voteP _ _ _ => false

/-- Number of votes in `votes` that chose `c`. -/
def countChoice (c : Choice) (votes : List (Principal × Choice)) : Nat :=
  List.countP (fun v => v.2 == c) votes

/-- The record expected after the votes in `votes` are cast in order on a
record `q`. -/
def afterVotes (q : Proposal) (votes : List (Principal × Choice)) : Proposal :=
  { q with
    approve := q.approve + countChoice Choice.Approve votes
    reject := q.reject + countChoice Choice.Reject votes
    pass := q.pass + countChoice Choice.Pass votes
    voted := q.voted ++ List.map Prod.fst votes }

/-- The `vote` invocations cast by `votes` on `key`, in order. -/
def voteOps (key : Nat) (votes : List (Principal × Choice)) : List Op :=
  List.map (fun v => Op.voteP v.1 key v.2) votes

/-- A record whose voter-list length equals the sum of its counters. -/
def balanced (q : Proposal) : Prop :=
  q.voted.length = q.approve + q.reject + q.pass

/-- Every record in the store is `balanced`. -/
def StoreInv (s : Store) : Prop :=
  ∀ e ∈ s, balanced e.2

/-! ### Concrete records used to instantiate theorems -/

def sampleVoted : Proposal := ⟨"d", 1, 0, 0, true, [2], 7⟩

def sampleOwned : Proposal := ⟨"d", 0, 0, 0, true, [], 7⟩

def sampleInactive : Proposal := ⟨"d", 0, 0, 0, false, [], 7⟩

/-! ### Store lemmas -/

theorem find?_key_map (g : Nat × Proposal → Nat × Proposal)
    (hg : ∀ e, (g e).1 = e.1) (key2 : Nat) (t : Store) :
    List.find? (fun e => e.1 == key2) (List.map g t) =
      Option.map g (List.find? (fun e => e.1 == key2) t) := by
  induction t with
  | nil => rfl
  | cons e t ih =>
      rw [List.map_cons, List.find?_cons, List.find?_cons, hg e]
      cases hbe : (e.1 == key2) with
      | true => rfl
      | false => exact ih

theorem find?_filter_other (key key2 : Nat) (h : key2 ≠ key) (s : Store) :
    List.find? (fun e => e.1 == key2)
        (List.filter (fun e => !(e.1 == key)) s) =
      List.find? (fun e => e.1 == key2) s := by
  induction s with
  | nil => rfl
  | cons e t ih =>
      by_cases he : e.1 = key
      · simp [List.filter_cons, he, Ne.symm h, List.find?_cons, ih]
      · cases hbe : (e.1 == key2) <;>
          simp [List.filter_cons, he, List.find?_cons, hbe, ih]

theorem Store.get_update_self (s : Store) (key : Nat) (f : Proposal → Proposal) :
    Store.get (Store.update s key f) key = (Store.get s key).map f := by
  unfold Store.get Store.update
  rw [find?_key_map _ (fun e => by cases hbe : (e.1 == key) <;> simp [hbe]) key s]
  cases hf : List.find? (fun e => e.1 == key) s with
  | none => rfl
  | some a =>
      have ha : a.1 = key := by simpa using List.find?_some hf
      simp [ha]

theorem Store.get_update_ne (s : Store) (key key2 : Nat)
    (f : Proposal → Proposal) (h : key2 ≠ key) :
    Store.get (Store.update s key f) key2 = Store.get s key2 := by
  unfold Store.get Store.update
  rw [find?_key_map _ (fun e => by cases hbe : (e.1 == key) <;> simp [hbe]) key2 s]
  cases hf : List.find? (fun e => e.1 == key2) s with
  | none => rfl
  | some a =>
      have ha : a.1 = key2 := by simpa using List.find?_some hf
      simp [ha, h]

theorem Store.get_insert_ne (s : Store) (key key2 : Nat) (v : Proposal)
    (h : key2 ≠ key) :
    Store.get (Store.insert s key v).1 key2 = Store.get s key2 := by
  simp only [Store.get, Store.insert, List.find?_cons]
  have h2 : ((key, v).1 == key2) = false := by simp [Ne.symm h]
  rw [h2, find?_filter_other key key2 h s]

theorem Store.get_insert_self (s : Store) (key : Nat) (v : Proposal) :
    Store.get (Store.insert s key v).1 key = some v := by
  simp [Store.get, Store.insert, List.find?_cons]

/-! ### Claim theorems: single-operation behavior -/

/-- C1: a caller already contained in a proposal's `voted` set gets
`AlreadyVoted` from `vote`, with the store (hence the record and all
counters) left unchanged. -/
theorem vote_second_time_already_voted (s : Store) (caller : Principal)
    (key : Nat) (choice : Choice) (p : Proposal)
    (hget : Store.get s key = some p) (hvoted : caller ∈ p.voted) :
    vote s caller key choice = (s, Except.error VoteError.AlreadyVoted) := by
  simp [vote, hget, hvoted]

theorem vote_second_time_already_voted_witness :
    Store.get [(1, sampleVoted)] 1 = some sampleVoted ∧
    2 ∈ sampleVoted.voted ∧
    vote [(1, sampleVoted)] 2 1 Choice.Approve =
      ([(1, sampleVoted)], Except.error VoteError.AlreadyVoted) :=
  ⟨by decide, by decide,
    vote_second_time_already_voted [(1, sampleVoted)] 2 1 Choice.Approve
      sampleVoted (by decide) (by decide)⟩

/-- C2: `edit_proposal` and `end_proposal` invoked by a caller different
from the stored owner return `AccessRejected` and leave the store (hence
the record) unmodified. -/
theorem nonowner_edit_end_rejected (s : Store) (caller : Principal)
    (key : Nat) (proposal : CreateProposal) (p : Proposal)
    (hget : Store.get s key = some p) (hown : caller ≠ p.owner) :
    edit_proposal s caller key proposal =
      (s, Except.error VoteError.AccessRejected) ∧
    end_proposal s caller key = (s, Except.error VoteError.AccessRejected) := by
  have h : (p.owner == caller) = false := by
    simp [Ne.symm hown]
  exact ⟨by simp [edit_proposal, hget, h], by simp [end_proposal, hget, h]⟩

theorem nonowner_edit_end_rejected_witness :
    Store.get [(1, sampleOwned)] 1 = some sampleOwned ∧
    (5 : Principal) ≠ sampleOwned.owner ∧
    (edit_proposal [(1, sampleOwned)] 5 1 ⟨"x", false⟩ =
        ([(1, sampleOwned)], Except.error VoteError.AccessRejected) ∧
      end_proposal [(1, sampleOwned)] 5 1 =
        ([(1, sampleOwned)], Except.error VoteError.AccessRejected)) :=
  ⟨by decide, by decide,
    nonowner_edit_end_rejected [(1, sampleOwned)] 5 1 ⟨"x", false⟩
      sampleOwned (by decide) (by decide)⟩

/-- C4: `vote` on an inactive proposal by a fresh caller still succeeds,
increments the chosen counter, and no call of `vote` ever returns
`ProposalIsNotActive`. -/
theorem vote_ignores_inactive (s : Store) (caller : Principal) (key : Nat)
    (choice : Choice) (p : Proposal)
    (hget : Store.get s key = some p)
    (_hinactive : p.is_active = false)
    (hnew : caller ∉ p.voted) :
    (vote s caller key choice).2 = Except.ok () ∧
    Store.get (vote s caller key choice).1 key =
      some (voteApply caller choice p) ∧
    choiceCounter choice (voteApply caller choice p) =
      choiceCounter choice p + 1 ∧
    ∀ (s2 : Store) (c2 : Principal) (k2 : Nat) (ch2 : Choice),
      (vote s2 c2 k2 ch2).2 ≠ Except.error VoteError.ProposalIsNotActive := by
  refine ⟨?_, ?_, ?_, ?_⟩
  · simp [vote, hget, hnew]
  · simp [vote, hget, hnew, Store.get_update_self, hget]
  · cases choice <;> simp [choiceCounter, voteApply]
  · intro s2 c2 k2 ch2
    cases hg : Store.get s2 k2 with
    | none => simp [vote, hg]
    | some q =>
        by_cases hc : c2 ∈ q.voted <;> simp [vote, hg, hc]

theorem vote_ignores_inactive_witness :
    Store.get [(1, sampleInactive)] 1 = some sampleInactive ∧
    sampleInactive.is_active = false ∧
    (2 : Principal) ∉ sampleInactive.voted ∧
    (vote [(1, sampleInactive)] 2 1 Choice.Approve).2 = Except.ok () :=
  ⟨by decide, by decide, by decide,
    (vote_ignores_inactive [(1, sampleInactive)] 2 1 Choice.Approve
      sampleInactive (by decide) (by decide) (by decide)).1⟩

/-- C5: `create_proposal` returns exactly what `get` saw at the key
before the insertion: the previously stored record when the key was
present, `none` when it was absent. -/
theorem create_returns_previous (s : Store) (caller : Principal) (key : Nat)
    (proposal : CreateProposal) :
    (create_proposal s caller key proposal).2 = Store.get s key := rfl

/-- C6: immediately after `create_proposal`, `get_proposal` returns a
record with the creating caller as owner, all counters zero, empty
`voted`, and the argument description and activity flag. -/
theorem create_then_get_fresh (s : Store) (caller : Principal) (key : Nat)
    (proposal : CreateProposal) :
    (get_proposal (create_proposal s caller key proposal).1 key).2 =
      some { description := proposal.description, approve := 0, reject := 0,
             pass := 0, is_active := proposal.is_active, voted := [],
             owner := caller } := by
  simpa [get_proposal, create_proposal, freshProposal]
    using Store.get_insert_self s key (freshProposal caller proposal)

/-- C7: for a key absent from the store, `get_proposal` returns `none`
and the three mutating key-directed operations return `NoSuchProposal`
with the store unchanged. -/
theorem absent_key_behavior (s : Store) (caller : Principal) (key : Nat)
    (proposal : CreateProposal) (choice : Choice)
    (habsent : Store.get s key = none) :
    (get_proposal s key).2 = none ∧
    edit_proposal s caller key proposal =
      (s, Except.error VoteError.NoSuchProposal) ∧
    end_proposal s caller key = (s, Except.error VoteError.NoSuchProposal) ∧
    vote s caller key choice = (s, Except.error VoteError.NoSuchProposal) := by
  refine ⟨habsent, ?_, ?_, ?_⟩ <;>
    simp [edit_proposal, end_proposal, vote, habsent]

theorem absent_key_behavior_witness :
    Store.get ([] : Store) 3 = none ∧
    vote ([] : Store) 2 3 Choice.Pass =
      (([] : Store), Except.error VoteError.NoSuchProposal) :=
  ⟨rfl, (absent_key_behavior [] 2 3 ⟨"x", true⟩ Choice.Pass rfl).2.2.2⟩

/-- C9: the two queries leave the store unchanged, and a repeated
`get_proposal` with no intervening mutation returns the same result. -/
theorem reads_are_pure (s : Store) (key : Nat) :
    (get_proposal s key).1 = s ∧ (get_proposal_count s).1 = s ∧
    (get_proposal ((get_proposal s key).1) key).2 = (get_proposal s key).2 :=
  ⟨rfl, rfl, rfl⟩

/-! ### Vote sequences -/

theorem voteApply_voted (c : Principal) (ch : Choice) (q : Proposal) :
    (voteApply c ch q).voted = q.voted ++ [c] := by
  cases ch <;> rfl

theorem voteApply_is_active (c : Principal) (ch : Choice) (q : Proposal) :
    (voteApply c ch q).is_active = q.is_active := by
  cases ch <;> rfl

theorem afterVotes_nil (q : Proposal) : afterVotes q [] = q := by
  simp [afterVotes, countChoice]

theorem afterVotes_cons (q : Proposal) (c : Principal) (ch : Choice)
    (rest : List (Principal × Choice)) :
    afterVotes (voteApply c ch q) rest = afterVotes q ((c, ch) :: rest) := by
  cases ch <;>
    simp [afterVotes, voteApply, countChoice, List.countP_cons] <;>
    omega

theorem runOps_votes (votes : List (Principal × Choice)) (s : Store)
    (key : Nat) (q : Proposal)
    (hget : Store.get s key = some q)
    (hfresh : ∀ v ∈ votes, v.1 ∉ q.voted)
    (hnodup : (List.map Prod.fst votes).Nodup) :
    Store.get (runOps s (voteOps key votes)) key =
      some (afterVotes q votes) := by
  induction votes generalizing s q with
  | nil => simpa [voteOps, runOps, afterVotes_nil] using hget
  | cons v rest ih =>
      obtain ⟨c, ch⟩ := v
      have hc : c ∉ q.voted := hfresh (c, ch) (by simp)
      have hstep : applyOp s (Op.voteP c key ch) =
          Store.update s key (voteApply c ch) := by
        simp [applyOp, vote, hget, hc]
      have hget2 : Store.get (Store.update s key (voteApply c ch)) key =
          some (voteApply c ch q) := by
        rw [Store.get_update_self, hget]
        rfl
      have hcrest : c ∉ List.map Prod.fst rest :=
        (List.nodup_cons.mp (by simpa using hnodup)).1
      have hfresh2 : ∀ w ∈ rest, w.1 ∉ (voteApply c ch q).voted := by
        intro w hw
        rw [voteApply_voted]
        have h1 : w.1 ∉ q.voted := hfresh w (by simp [hw])
        have h2 : w.1 ≠ c := by
          intro hcontra
          exact hcrest (hcontra ▸ List.mem_map_of_mem Prod.fst hw)
        simp [h1, h2]
      have hnodup2 : (List.map Prod.fst rest).Nodup :=
        (List.nodup_cons.mp (by simpa using hnodup)).2
      have hrest := ih (Store.update s key (voteApply c ch))
        (voteApply c ch q) hget2 hfresh2 hnodup2
      have hrun : runOps s (voteOps key ((c, ch) :: rest)) =
          runOps (applyOp s (Op.voteP c key ch)) (voteOps key rest) := rfl
      rw [hrun, hstep, hrest, afterVotes_cons]

/-- C8: starting from a freshly created proposal, a sequence of votes by
pairwise-distinct callers, of which `a` chose Approve, `r` chose Reject
and `p` chose Pass, leaves a stored record with `approve = a`,
`reject = r`, `pass = p` and exactly one `voted` entry per vote (each
call takes the success path, as established by `runOps_votes`). -/
theorem counter_conservation (s : Store) (creator : Principal) (key : Nat)
    (proposal : CreateProposal) (votes : List (Principal × Choice))
    (hnodup : (List.map Prod.fst votes).Nodup) :
    Store.get (runOps (create_proposal s creator key proposal).1
        (voteOps key votes)) key =
      some (afterVotes (freshProposal creator proposal) votes) ∧
    (afterVotes (freshProposal creator proposal) votes).approve =
      countChoice Choice.Approve votes ∧
    (afterVotes (freshProposal creator proposal) votes).reject =
      countChoice Choice.Reject votes ∧
    (afterVotes (freshProposal creator proposal) votes).pass =
      countChoice Choice.Pass votes ∧
    (afterVotes (freshProposal creator proposal) votes).voted.length =
      votes.length := by
  refine ⟨?_, by simp [afterVotes, freshProposal],
    by simp [afterVotes, freshProposal], by simp [afterVotes, freshProposal],
    by simp [afterVotes, freshProposal]⟩
  exact runOps_votes votes (create_proposal s creator key proposal).1 key
    (freshProposal creator proposal)
    (Store.get_insert_self s key (freshProposal creator proposal))
    (fun v _ => by simp [freshProposal]) hnodup

theorem counter_conservation_witness :
    (List.map Prod.fst
        [((2 : Principal), Choice.Approve), (3, Choice.Reject),
          (4, Choice.Approve)]).Nodup ∧
    Store.get (runOps (create_proposal [] 7 1 ⟨"d", true⟩).1
        (voteOps 1
          [((2 : Principal), Choice.Approve), (3, Choice.Reject),
            (4, Choice.Approve)])) 1 =
      some (afterVotes (freshProposal 7 ⟨"d", true⟩)
        [((2 : Principal), Choice.Approve), (3, Choice.Reject),
          (4, Choice.Approve)]) :=
  ⟨by decide,
    (counter_conservation [] 7 1 ⟨"d", true⟩
      [((2 : Principal), Choice.Approve), (3, Choice.Reject),
        (4, Choice.Approve)] (by decide)).1⟩

/-! ### Deactivation -/

theorem applyOp_inactive_preserved (s : Store) (key : Nat) (p : Proposal)
    (o : Op) (hget : Store.get s key = some p) (hact : p.is_active = false)
    (ho : mayActivate key o = false) :
    ∃ q, Store.get (applyOp s o) key = some q ∧ q.is_active = false := by
  cases o with
  | create c k cp =>
      have hk : key ≠ k := by
        intro hcontra
        simp [mayActivate, hcontra] at ho
      refine ⟨p, ?_, hact⟩
      simpa [applyOp, create_proposal,
        Store.get_insert_ne s k key (freshProposal c cp) hk] using hget
  | edit c k cp =>
      have hk : key ≠ k := by
        intro hcontra
        simp [mayActivate, hcontra] at ho
      refine ⟨p, ?_, hact⟩
      cases hg : Store.get s k with
      | none => simpa [applyOp, edit_proposal, hg] using hget
      | some q =>
          cases how : (q.owner == c) <;>
            simpa [applyOp, edit_proposal, hg, how,
              Store.get_update_ne s k key (editApply cp) hk] using hget
  | endP c k =>
      by_cases hk : k = key
      · subst hk
        cases how : (p.owner == c) with
        | false => exact ⟨p, by simp [applyOp, end_proposal, hget, how], hact⟩
        | true =>
            refine ⟨endApply p, ?_, rfl⟩
            simp [applyOp, end_proposal, hget, how, Store.get_update_self]
      · cases hg : Store.get s k with
        | none => exact ⟨p, by simpa [applyOp, end_proposal, hg] using hget,
            hact⟩
        | some q =>
            cases how : (q.owner == c) <;>
              exact ⟨p, by simpa [applyOp, end_proposal, hg, how,
                Store.get_update_ne s k key endApply (Ne.symm hk)] using hget,
                hact⟩
  | voteP c k ch =>
      by_cases hk : k = key
      · subst hk
        by_cases hc : c ∈ p.voted
        · exact ⟨p, by simp [applyOp, vote, hget, hc], hact⟩
        · refine ⟨voteApply c ch p, ?_, by rw [voteApply_is_active]; exact hact⟩
          simp [applyOp, vote, hget, hc, Store.get_update_self]
      · cases hg : Store.get s k with
        | none => exact ⟨p, by simpa [applyOp, vote, hg] using hget, hact⟩
        | some q =>
            by_cases hc : c ∈ q.voted
            · exact ⟨p, by simpa [applyOp, vote, hg, hc] using hget, hact⟩
            · exact ⟨p, by simpa [applyOp, vote, hg, hc,
                Store.get_update_ne s k key (voteApply c ch) (Ne.symm hk)]
                using hget, hact⟩

theorem runOps_inactive_preserved (ops : List Op) (s : Store) (key : Nat)
    (p : Proposal) (hget : Store.get s key = some p)
    (hact : p.is_active = false)
    (hops : ∀ o ∈ ops, mayActivate key o = false) :
    ∃ q, Store.get (runOps s ops) key = some q ∧ q.is_active = false := by
  induction ops generalizing s p with
  | nil => exact ⟨p, hget, hact⟩
  | cons o rest ih =>
      obtain ⟨q, hq, hqa⟩ :=
        applyOp_inactive_preserved s key p o hget hact (hops o (by simp))
      exact ih (applyOp s o) q hq hqa (fun o2 h2 => hops o2 (by simp [h2]))

/-- C3 counterexample: deactivation is not monotone over all operations.
After `end_proposal` succeeds the record is inactive, but the owner can
re-activate it with `edit_proposal(key, ..., is_active = true)` (and
`create_proposal` on the same key likewise overwrites the flag). -/
theorem edit_reactivates_after_end :
    (Store.get (runOps [] [Op.create 7 1 ⟨"d", true⟩, Op.endP 7 1]) 1).map
        Proposal.is_active = some false ∧
    (Store.get (runOps []
          [Op.create 7 1 ⟨"d", true⟩, Op.endP 7 1,
            Op.edit 7 1 ⟨"d", true⟩]) 1).map
        Proposal.is_active = some true := by
  constructor <;> decide

/-- C3 (amended): once `end_proposal(key)` succeeds, `is_active` stays
false under every later sequence of operations that contains no
`create_proposal` and no `edit_proposal` on that key; `end_proposal` and
`vote` (and any operation on other keys) never reset the flag. -/
theorem inactive_monotone_without_create_edit (s : Store)
    (caller : Principal) (key : Nat) (ops : List Op)
    (hok : (end_proposal s caller key).2 = Except.ok ())
    (hops : ∀ o ∈ ops, mayActivate key o = false) :
    ∃ q, Store.get (runOps (end_proposal s caller key).1 ops) key = some q ∧
      q.is_active = false := by
  cases hg : Store.get s key with
  | none => simp [end_proposal, hg] at hok
  | some p =>
      cases how : (p.owner == caller) with
      | false => simp [end_proposal, hg, how] at hok
      | true =>
          have hst : (end_proposal s caller key).1 =
              Store.update s key endApply := by
            simp [end_proposal, hg, how]
          have hget2 : Store.get (Store.update s key endApply) key =
              some (endApply p) := by
            rw [Store.get_update_self, hg]
            rfl
          rw [hst]
          exact runOps_inactive_preserved ops _ key (endApply p) hget2 rfl hops

theorem inactive_monotone_witness :
    (end_proposal [(1, sampleOwned)] 7 1).2 = Except.ok () ∧
    (∀ o ∈ ([Op.voteP 2 1 Choice.Approve, Op.endP 7 1,
        Op.create 9 2 ⟨"e", true⟩] : List Op), mayActivate 1 o = false) ∧
    ∃ q, Store.get (runOps (end_proposal [(1, sampleOwned)] 7 1).1
        [Op.voteP 2 1 Choice.Approve, Op.endP 7 1,
          Op.create 9 2 ⟨"e", true⟩]) 1 = some q ∧ q.is_active = false :=
  ⟨rfl, by decide,
    inactive_monotone_without_create_edit [(1, sampleOwned)] 7 1
      [Op.voteP 2 1 Choice.Approve, Op.endP 7 1, Op.create 9 2 ⟨"e", true⟩]
      rfl (by decide)⟩

/-! ### The voted-length invariant -/

theorem balanced_fresh (c : Principal) (cp : CreateProposal) :
    balanced (freshProposal c cp) := rfl

theorem balanced_editApply (cp : CreateProposal) (q : Proposal)
    (h : balanced q) : balanced (editApply cp q) := h

theorem balanced_endApply (q : Proposal) (h : balanced q) :
    balanced (endApply q) := h

theorem balanced_voteApply (c : Principal) (ch : Choice) (q : Proposal)
    (h : balanced q) : balanced (voteApply c ch q) := by
  cases ch <;> simp [balanced, voteApply] <;> simp [balanced] at h <;> omega

theorem storeInv_update (s : Store) (key : Nat) (f : Proposal → Proposal)
    (hs : StoreInv s) (hf : ∀ q, balanced q → balanced (f q)) :
    StoreInv (Store.update s key f) := by
  intro e he
  rw [Store.update, List.mem_map] at he
  obtain ⟨a, ha, rfl⟩ := he
  have hb := hs a ha
  cases hbe : (a.1 == key)
  · simpa [hbe] using hb
  · simpa [hbe] using hf a.2 hb

theorem storeInv_insert (s : Store) (key : Nat) (v : Proposal)
    (hs : StoreInv s) (hv : balanced v) :
    StoreInv (Store.insert s key v).1 := by
  intro e he
  rw [Store.insert] at he
  rcases List.mem_cons.mp he with he | he
  · rw [he]
    exact hv
  · exact hs e (List.mem_of_mem_filter he)

theorem storeInv_applyOp (s : Store) (o : Op) (hs : StoreInv s) :
    StoreInv (applyOp s o) := by
  cases o with
  | create c k cp =>
      exact storeInv_insert s k (freshProposal c cp) hs (balanced_fresh c cp)
  | edit c k cp =>
      show StoreInv (edit_proposal s c k cp).1
      cases hg : Store.get s k with
      | none => simpa [edit_proposal, hg] using hs
      | some q =>
          cases how : (q.owner == c) with
          | false => simpa [edit_proposal, hg, how] using hs
          | true =>
              have := storeInv_update s k (editApply cp) hs
                (balanced_editApply cp)
              simpa [edit_proposal, hg, how] using this
  | endP c k =>
      show StoreInv (end_proposal s c k).1
      cases hg : Store.get s k with
      | none => simpa [end_proposal, hg] using hs
      | some q =>
          cases how : (q.owner == c) with
          | false => simpa [end_proposal, hg, how] using hs
          | true =>
              have := storeInv_update s k endApply hs balanced_endApply
              simpa [end_proposal, hg, how] using this
  | voteP c k ch =>
      show StoreInv (vote s c k ch).1
      cases hg : Store.get s k with
      | none => simpa [vote, hg] using hs
      | some q =>
          by_cases hc : c ∈ q.voted
          · simpa [vote, hg, hc] using hs
          · have := storeInv_update s k (voteApply c ch) hs
              (balanced_voteApply c ch)
            simpa [vote, hg, hc] using this

theorem storeInv_runOps (ops : List Op) (s : Store) (hs : StoreInv s) :
    StoreInv (runOps s ops) := by
  induction ops generalizing s with
  | nil => exact hs
  | cons o rest ih => exact ih (applyOp s o) (storeInv_applyOp s o hs)

/-- C10: in every store reachable from the empty store, every stored
proposal's `voted` list has exactly `approve + reject + pass` entries:
each successful vote adds one voter and one counter increment, and no
other operation touches either. -/
theorem reachable_voted_length_eq_counters (ops : List Op) (key : Nat)
    (p : Proposal) (h : Store.get (runOps [] ops) key = some p) :
    p.voted.length = p.approve + p.reject + p.pass := by
  have hs : StoreInv (runOps [] ops) :=
    storeInv_runOps ops [] (fun e he => absurd he (List.not_mem_nil e))
  rw [Store.get] at h
  cases hf : List.find? (fun e => e.1 == key) (runOps [] ops) with
  | none => rw [hf] at h; cases h
  | some a =>
      rw [hf] at h
      have hmem := List.mem_of_find?_eq_some hf
      have hb := hs a hmem
      have h2 : a.2 = p := by simpa using h
      rw [← h2]
      exact hb

theorem reachable_balance_witness :
    Store.get (runOps []
        [Op.create 7 1 ⟨"d", true⟩, Op.voteP 2 1 Choice.Approve]) 1 =
      some sampleVoted ∧
    sampleVoted.voted.length =
      sampleVoted.approve + sampleVoted.reject + sampleVoted.pass :=
  ⟨by decide,
    reachable_voted_length_eq_counters
      [Op.create 7 1 ⟨"d", true⟩, Op.voteP 2 1 Choice.Approve] 1 sampleVoted
      (by decide)⟩

end VoteContract
